import Mathlib

/-!
Verification of the dragon-curve core of matt-cornell/dragons
(src/src/dragon.rs), shallowly embedded in Lean.

Machine-integer conventions: `Dir` values are `u8` indices 0..7 in the
source; `u8` addition wraps modulo 256 (release semantics), and
`Dir::from_u8` reduces modulo 8 before the (transmute) reinterpretation.
Since 8 divides 256, composing the wrap with the final `% 8` agrees with
plain natural-number arithmetic modulo 8; the embedding keeps the `% 256`
wrap explicit where the source performs `u8` arithmetic.
-/

/-- The eight compass directions of `Dir` in src/src/dragon.rs
(`#[repr(u8)]`, discriminants 0..7). -/
inductive Dir : Type where
  | Npp -- ++
  | Np0 -- +0
  | Npm -- +-
  | N0m -- 0-
  | Nmm -- --
  | Nm0 -- -0
  | Nmp -- -+
  | N0p -- 0+
  deriving DecidableEq, Repr

/-- The `u8` discriminant of a `Dir` (the source's `*self as u8`). -/
def Dir.toIdx : Dir → Nat
  | .Npp => 0
  | .Np0 => 1
  | .Npm => 2
  | .N0m => 3
  | .Nmm => 4
  | .Nm0 => 5
  | .Nmp => 6
  | .N0p => 7

/-- Reinterpret an index already reduced below 8 as a `Dir`
(the `transmute` inside `Dir::from_u8_unchecked`); inputs are always
below 8 because `from_u8` reduces first. -/
def Dir.ofMod : Nat → Dir
  | 0 => .Npp
  | 1 => .Np0
  | 2 => .Npm
  | 3 => .N0m
  | 4 => .Nmm
  | 5 => .Nm0
  | 6 => .Nmp
  | _ => .N0p

/-- `Dir::from_u8`: reduce modulo 8, then reinterpret. -/
def Dir.from_u8 (idx : Nat) : Dir := Dir.ofMod (idx % 8)

/-- `Dir::rotate`: `from_u8(*self as u8 + by)`; the `u8` addition wraps
modulo 256 before `from_u8` reduces modulo 8. -/
def Dir.rotate (d : Dir) (b : Nat) : Dir := Dir.from_u8 ((d.toIdx + b) % 256)

/-- `Dir::right`: `rotate(1)`. -/
def Dir.right (d : Dir) : Dir := d.rotate 1

/-- `Dir::left`: `rotate(7)`. -/
def Dir.left (d : Dir) : Dir := d.rotate 7

/-- `CurveFlags`: a two-bit flag set, `LEVY = 0b01`, `FLIP = 0b10`. -/
structure CurveFlags : Type where
  levy : Bool
  flip : Bool
  deriving DecidableEq, Repr

/-- `CurveFlags::DRAGON` (= `NONE`, both bits clear). -/
def CurveFlags.dragon : CurveFlags := ⟨false, false⟩

/-- `DragonCurve`: segment list, depth, flags.  The source stores the
sequence in a `LinkedList<Dir>` and the depth in a `u8`. -/
structure DragonCurve : Type where
  list : List Dir
  depth : Nat
  flags : CurveFlags
  deriving DecidableEq, Repr

/-- `DragonCurve::new`: a single-segment curve at depth 0. -/
def DragonCurve.new (start : Dir) (flags : CurveFlags) : DragonCurve :=
  { list := [start], depth := 0, flags := flags }

/-- `DragonCurve::rotate_by`: rotate every element in place. -/
def rotate_by (c : DragonCurve) (b : Nat) : DragonCurve :=
  { c with list := c.list.map (fun d => d.rotate b) }

/-- `DragonCurve::rotate_to`: `by = *front as u8 + 8 - to as u8`, then
`rotate_by`.  (`front + 8 - to` stays within 1..15, so the `u8`
arithmetic neither wraps nor underflows.)  The source unwraps the front
element and panics on an empty list; that state is unreachable through
the public operations (the length is always `2^depth ≥ 1`), and the
embedding reads the head through a default there. -/
def rotate_to (c : DragonCurve) (t : Dir) : DragonCurve :=
  rotate_by c ((c.list.headD Dir.Npp).toIdx + 8 - t.toIdx)

/-- One cursor pass of the grow loop in `DragonCurve::set_depth`,
parameterised by the toggling `right` flag (named `par` here): each
element `d` is rewritten and a new element is inserted directly after
it, producing the pair `[d.left, d.right]` when
`(LEVY || right) ^ FLIP` holds and `[d.right, d.left]` otherwise. -/
def growStepAux (f : CurveFlags) (par : Bool) : List Dir → List Dir
  | [] => []
  | d :: rest =>
    if Bool.xor (f.levy || par) f.flip then
      d.left :: d.right :: growStepAux f (!par) rest
    else
      d.right :: d.left :: growStepAux f (!par) rest

/-- One full grow level (`right` starts at `true` each pass). -/
def growStep (f : CurveFlags) (l : List Dir) : List Dir := growStepAux f true l

/-- `k` grow levels (the source's `for _ in self.depth..depth` loop
applies `growStep` once per iteration; iterating a single function is
the same whichever end is peeled). -/
def growIter (f : CurveFlags) : Nat → List Dir → List Dir
  | 0, l => l
  | k + 1, l => growStep f (growIter f k l)

/-- `8u8.wrapping_sub(r)` for an argument held in a `u8`. -/
def wrapSub8 (r : Nat) : Nat := (264 - r % 256) % 256

/-- `DragonCurve::set_depth`.  Equal target: no structural change.
Larger target: grow one level per missing depth.  Smaller target:
rotate the kept elements by `depth - newDepth` (negated through
`8u8.wrapping_sub` under `FLIP`) and truncate to `2^newDepth`
(`split_after`); the `newDepth == 0` branch keeps only the front
element.  The source unwraps the front element in that branch and would
panic on an empty list — unreachable under the length invariant; the
embedding returns the empty list there. -/
def set_depth (c : DragonCurve) (depth : Nat) : DragonCurve :=
  if c.depth = depth then
    { c with depth := depth }
  else if c.depth < depth then
    { c with list := growIter c.flags (depth - c.depth) c.list, depth := depth }
  else
    if depth = 0 then
      match c.list with
      | [] => { c with list := [], depth := depth }
      | d :: _ =>
        { c with
          list := [d.rotate (if c.flags.flip then wrapSub8 c.depth else c.depth)],
          depth := depth }
    else
      { c with
        list := (c.list.take (2 ^ depth)).map
          (fun d => d.rotate
            (if c.flags.flip then wrapSub8 (c.depth - depth) else c.depth - depth)),
        depth := depth }

/-- `impl PartialEq for DragonCurve`: compares `depth` and `flags` only
(the `bitflags`-derived `PartialEq` on `CurveFlags` is bitwise, i.e.
structural, equality). -/
def beqDragonCurve (a b : DragonCurve) : Bool :=
  (a.depth == b.depth) && (a.flags == b.flags)

/-- Curves reachable from `new` through the public mutating operations. -/
inductive Reachable (s : Dir) (f : CurveFlags) : DragonCurve → Prop where
  | base : Reachable s f (DragonCurve.new s f)
  | rotBy (b : Nat) {c : DragonCurve} :
      Reachable s f c → Reachable s f (rotate_by c b)
  | rotTo (t : Dir) {c : DragonCurve} :
      Reachable s f c → Reachable s f (rotate_to c t)
  | setDepth (n : Nat) {c : DragonCurve} :
      Reachable s f c → Reachable s f (set_depth c n)

/-- Stated from the spec for comparison with the grow pass: the pair
replacing element `d` is `(d.left(), d.right())` when
`(flags.LEVY || parity) xor flags.FLIP` holds, and `(d.right(), d.left())`
otherwise. -/
def specSubdivPair (f : CurveFlags) (par : Bool) (d : Dir) : List Dir :=
  if Bool.xor (f.levy || par) f.flip then [d.left, d.right] else [d.right, d.left]

/-- Stated from the spec for comparison with the grow pass: one grow
level replaces each original element, in order, by its pair, where the
parity starts true and toggles once per original element (so the parity
at index `i` is "`i` is even"). -/
def specGrowLevel (f : CurveFlags) (l : List Dir) : List Dir :=
  ((l.enum).map (fun p => specSubdivPair f (decide (p.1 % 2 = 0)) p.2)).flatten

/-! ### Direction arithmetic -/

theorem Dir.toIdx_ofMod (m : Nat) (hm : m < 8) : (Dir.ofMod m).toIdx = m := by
  interval_cases m <;> rfl

theorem Dir.toIdx_from_u8 (n : Nat) : (Dir.from_u8 n).toIdx = n % 8 :=
  Dir.toIdx_ofMod _ (Nat.mod_lt _ (by norm_num))

theorem Dir.toIdx_lt (d : Dir) : d.toIdx < 8 := by cases d <;> decide

theorem Dir.toIdx_inj : ∀ {a b : Dir}, a.toIdx = b.toIdx → a = b := by
  intro a b
  cases a <;> cases b <;> simp [Dir.toIdx]

theorem Dir.toIdx_rotate (d : Dir) (b : Nat) :
    (d.rotate b).toIdx = (d.toIdx + b) % 8 := by
  unfold Dir.rotate
  rw [Dir.toIdx_from_u8]
  omega

theorem Dir.rotate_rotate (d : Dir) (a b : Nat) :
    (d.rotate a).rotate b = d.rotate (a + b) :=
  Dir.toIdx_inj (by rw [Dir.toIdx_rotate, Dir.toIdx_rotate, Dir.toIdx_rotate]; omega)

theorem Dir.rotate_congr_mod (d : Dir) {a b : Nat} (h : a % 8 = b % 8) :
    d.rotate a = d.rotate b :=
  Dir.toIdx_inj (by rw [Dir.toIdx_rotate, Dir.toIdx_rotate]; omega)

theorem Dir.rotate_zero (d : Dir) : d.rotate 0 = d :=
  Dir.toIdx_inj (by rw [Dir.toIdx_rotate]; have := Dir.toIdx_lt d; omega)

theorem Dir.rotate_eq_self (d : Dir) {a : Nat} (h : a % 8 = 0) : d.rotate a = d := by
  rw [Dir.rotate_congr_mod d (b := 0) (by omega), Dir.rotate_zero]

theorem Dir.left_rotate (d : Dir) (b : Nat) :
    (d.rotate b).left = d.left.rotate b := by
  unfold Dir.left
  rw [Dir.rotate_rotate, Dir.rotate_rotate]
  exact Dir.rotate_congr_mod d (by omega)

theorem Dir.right_rotate (d : Dir) (b : Nat) :
    (d.rotate b).right = d.right.rotate b := by
  unfold Dir.right
  rw [Dir.rotate_rotate, Dir.rotate_rotate]
  exact Dir.rotate_congr_mod d (by omega)

/-! ### Grow-pass structure -/

theorem growStepAux_length (f : CurveFlags) (par : Bool) (l : List Dir) :
    (growStepAux f par l).length = 2 * l.length := by
  induction l generalizing par with
  | nil => rfl
  | cons d rest ih =>
    unfold growStepAux
    split <;> simp [ih] <;> omega

theorem growStepAux_map_rotate (f : CurveFlags) (b : Nat) (par : Bool) (l : List Dir) :
    growStepAux f par (l.map (fun d => d.rotate b))
      = (growStepAux f par l).map (fun d => d.rotate b) := by
  induction l generalizing par with
  | nil => rfl
  | cons d rest ih =>
    unfold growStepAux
    simp only [List.map_cons]
    split <;> simp [Dir.left_rotate, Dir.right_rotate, ih]

theorem growStepAux_nil (f : CurveFlags) (par : Bool) : growStepAux f par [] = [] := rfl

theorem growStepAux_cons (f : CurveFlags) (par : Bool) (d : Dir) (rest : List Dir) :
    growStepAux f par (d :: rest)
      = if Bool.xor (f.levy || par) f.flip then
          d.left :: d.right :: growStepAux f (!par) rest
        else
          d.right :: d.left :: growStepAux f (!par) rest := rfl

theorem growStepAux_take (f : CurveFlags) (par : Bool) (l : List Dir) (n : Nat) :
    (growStepAux f par l).take (2 * n) = growStepAux f par (l.take n) := by
  induction l generalizing par n with
  | nil => simp [growStepAux]
  | cons d rest ih =>
    cases n with
    | zero => simp [growStepAux]
    | succ m =>
      have h2 : 2 * (m + 1) = 2 * m + 1 + 1 := by ring
      rw [growStepAux_cons, List.take_succ_cons, growStepAux_cons]
      split <;> simp only [h2, List.take_succ_cons, ih]

theorem growStep_cons (f : CurveFlags) (d : Dir) (rest : List Dir) :
    growStep f (d :: rest)
      = d.rotate (if f.flip then 1 else 7)
        :: d.rotate (if f.flip then 7 else 1) :: growStepAux f false rest := by
  rw [growStep, growStepAux_cons]
  cases hf : f.flip <;> cases hl : f.levy <;>
    simp [hf, hl, Dir.left, Dir.right]

theorem growIter_length (f : CurveFlags) (k : Nat) (l : List Dir) :
    (growIter f k l).length = 2 ^ k * l.length := by
  induction k with
  | zero => simp [growIter]
  | succ k ih =>
    show (growStep f (growIter f k l)).length = _
    unfold growStep
    rw [growStepAux_length, ih]
    ring

theorem growIter_add (f : CurveFlags) (a b : Nat) (l : List Dir) :
    growIter f (a + b) l = growIter f a (growIter f b l) := by
  induction a with
  | zero => simp [growIter]
  | succ a ih =>
    have h : a + 1 + b = (a + b) + 1 := by omega
    rw [h]
    show growStep f (growIter f (a + b) l) = growStep f (growIter f a (growIter f b l))
    rw [ih]

theorem growIter_map_rotate (f : CurveFlags) (b : Nat) (k : Nat) (l : List Dir) :
    growIter f k (l.map (fun d => d.rotate b))
      = (growIter f k l).map (fun d => d.rotate b) := by
  induction k with
  | zero => rfl
  | succ k ih =>
    show growStep f (growIter f k (l.map _)) = _
    rw [ih]
    exact growStepAux_map_rotate f b true _

/-- The head of a grown singleton: each grow level sends the front
element to its left (or right, under FLIP) neighbour. -/
theorem growIter_singleton_head (f : CurveFlags) (j : Nat) (s : Dir) :
    ∃ t, growIter f j [s] = s.rotate ((if f.flip then 1 else 7) * j) :: t := by
  induction j with
  | zero =>
    exact ⟨[], by simp [growIter, Dir.rotate_zero]⟩
  | succ j ih =>
    obtain ⟨t, ht⟩ := ih
    have harith : (if f.flip then (1 : Nat) else 7) * j + (if f.flip then (1 : Nat) else 7)
        = (if f.flip then (1 : Nat) else 7) * (j + 1) := by ring
    show ∃ u, growStep f (growIter f j [s]) = _ :: u
    rw [ht, growStep_cons, Dir.rotate_rotate, harith]
    exact ⟨_, rfl⟩

/-- Core self-similarity: the length-`2^d` front part of a curve grown
`d + j` levels from a singleton is exactly the curve grown `d` levels
from the suitably rotated singleton. -/
theorem growIter_take_pow (f : CurveFlags) (s : Dir) (d : Nat) :
    ∀ j, (growIter f (d + j) [s]).take (2 ^ d)
      = growIter f d [s.rotate ((if f.flip then 1 else 7) * j)] := by
  induction d with
  | zero =>
    intro j
    obtain ⟨t, ht⟩ := growIter_singleton_head f j s
    rw [Nat.zero_add, ht]
    rfl
  | succ d ih =>
    intro j
    have hidx : d + 1 + j = (d + j) + 1 := by omega
    rw [hidx]
    show (growStep f (growIter f (d + j) [s])).take (2 ^ (d + 1)) = _
    rw [show (2 : Nat) ^ (d + 1) = 2 * 2 ^ d by ring]
    unfold growStep
    rw [growStepAux_take, ih j]
    rfl

/-! ### Branch lemmas for `set_depth` -/

theorem set_depth_flags (c : DragonCurve) (n : Nat) : (set_depth c n).flags = c.flags := by
  unfold set_depth
  repeat' split
  all_goals rfl

theorem set_depth_depth (c : DragonCurve) (n : Nat) : (set_depth c n).depth = n := by
  unfold set_depth
  repeat' split
  all_goals rfl

theorem set_depth_self (c : DragonCurve) : set_depth c c.depth = c := by
  cases c with
  | mk l d fl => simp [set_depth]

theorem set_depth_grow {c : DragonCurve} {n : Nat} (h : c.depth < n) :
    set_depth c n
      = { c with list := growIter c.flags (n - c.depth) c.list, depth := n } := by
  rw [set_depth, if_neg (by omega), if_pos h]

theorem set_depth_shrink_zero {c : DragonCurve} (h : 0 < c.depth)
    {d : Dir} {t : List Dir} (hc : c.list = d :: t) :
    set_depth c 0
      = { c with
          list := [d.rotate (if c.flags.flip then wrapSub8 c.depth else c.depth)],
          depth := 0 } := by
  rw [set_depth, if_neg (by omega), if_neg (by omega), if_pos rfl, hc]

theorem set_depth_shrink_pos {c : DragonCurve} {n : Nat} (h : n < c.depth) (hn : n ≠ 0) :
    set_depth c n
      = { c with
          list := (c.list.take (2 ^ n)).map
            (fun d => d.rotate
              (if c.flags.flip then wrapSub8 (c.depth - n) else c.depth - n)),
          depth := n } := by
  rw [set_depth, if_neg (by omega), if_neg (by omega), if_neg hn]

/-! ### Canonical curves

Every curve reachable through the public operations is, field for field,
the curve whose list was generated by growing some singleton. -/

/-- The net offset applied by a shrink cancels the per-level head offset
accumulated while growing. -/
theorem shrinkRot_cancel (flip : Bool) (m : Nat) :
    ((if flip then (1 : Nat) else 7) * m + (if flip then wrapSub8 m else m)) % 8 = 0 := by
  cases flip <;> simp [wrapSub8] <;> omega

/-- Same cancellation for the spec-stated offset `(D - d) mod 8`,
negated through `(8 - rot) mod 8` under FLIP. -/
theorem specRot_cancel (flip : Bool) (m : Nat) :
    ((if flip then (1 : Nat) else 7) * m
      + (if flip then (8 - m % 8) % 8 else m % 8)) % 8 = 0 := by
  cases flip <;> simp <;> omega

theorem rotate_by_canonical (f : CurveFlags) (s0 : Dir) (D b : Nat) :
    rotate_by ⟨growIter f D [s0], D, f⟩ b
      = ⟨growIter f D [s0.rotate b], D, f⟩ := by
  show (⟨(growIter f D [s0]).map _, D, f⟩ : DragonCurve) = _
  rw [← growIter_map_rotate]
  rfl

theorem set_depth_canonical (f : CurveFlags) (s0 : Dir) (D n : Nat) :
    set_depth ⟨growIter f D [s0], D, f⟩ n = ⟨growIter f n [s0], n, f⟩ := by
  rcases lt_trichotomy D n with hlt | heq | hgt
  · rw [set_depth_grow (c := ⟨growIter f D [s0], D, f⟩) hlt]
    show (⟨growIter f (n - D) (growIter f D [s0]), n, f⟩ : DragonCurve) = _
    rw [← growIter_add]
    congr 2
    omega
  · subst heq
    exact set_depth_self _
  · by_cases hn : n = 0
    · subst hn
      obtain ⟨t, ht⟩ := growIter_singleton_head f D s0
      rw [set_depth_shrink_zero (c := ⟨growIter f D [s0], D, f⟩) hgt ht]
      show (⟨[((s0.rotate _).rotate _)], 0, f⟩ : DragonCurve) = ⟨[s0], 0, f⟩
      rw [Dir.rotate_rotate, Dir.rotate_eq_self s0 (shrinkRot_cancel f.flip D)]
    · rw [set_depth_shrink_pos (c := ⟨growIter f D [s0], D, f⟩) hgt hn]
      have hdec : D = n + (D - n) := by omega
      have key := growIter_take_pow f s0 n (D - n)
      rw [← hdec] at key
      show (⟨((growIter f D [s0]).take (2 ^ n)).map _, n, f⟩ : DragonCurve) = _
      rw [key, ← growIter_map_rotate]
      show (⟨growIter f n [(s0.rotate _).rotate _], n, f⟩ : DragonCurve) = _
      rw [Dir.rotate_rotate, Dir.rotate_eq_self s0 (shrinkRot_cancel f.flip (D - n))]

/-- Master invariant: every reachable curve is a canonical grown curve. -/
theorem reachable_canonical {s : Dir} {f : CurveFlags} {c : DragonCurve}
    (h : Reachable s f c) :
    ∃ (s0 : Dir) (D : Nat), c = ⟨growIter f D [s0], D, f⟩ := by
  induction h with
  | base => exact ⟨s, 0, rfl⟩
  | rotBy b h ih =>
    obtain ⟨s0, D, hc⟩ := ih
    exact ⟨s0.rotate b, D, by rw [hc, rotate_by_canonical]⟩
  | rotTo t h ih =>
    obtain ⟨s0, D, hc⟩ := ih
    refine ⟨s0.rotate (((growIter f D [s0]).headD Dir.Npp).toIdx + 8 - t.toIdx), D, ?_⟩
    rw [hc]
    show rotate_by _ _ = _
    rw [rotate_by_canonical]
  | setDepth n h ih =>
    obtain ⟨s0, D, hc⟩ := ih
    exact ⟨s0, n, by rw [hc, set_depth_canonical]⟩

/-! ### The grow pass matches the spec-stated subdivision rule -/

theorem growStepAux_enumFrom (f : CurveFlags) (l : List Dir) :
    ∀ (n : Nat) (par : Bool), par = decide (n % 2 = 0) →
      growStepAux f par l
        = ((l.enumFrom n).map
            (fun p => specSubdivPair f (decide (p.1 % 2 = 0)) p.2)).flatten := by
  induction l with
  | nil => intro n par hp; rfl
  | cons d rest ih =>
    intro n par hp
    have hnext : (!par) = decide ((n + 1) % 2 = 0) := by
      subst hp
      by_cases h : n % 2 = 0 <;> simp [h] <;> omega
    rw [growStepAux_cons,
      show List.enumFrom n (d :: rest) = (n, d) :: List.enumFrom (n + 1) rest from rfl,
      List.map_cons, List.flatten_cons, ← ih (n + 1) (!par) hnext, ← hp]
    unfold specSubdivPair
    split <;> rfl

/-! ### Claim theorems -/

/-- Claim C1 (code bug): `rotate_to` is specified to rotate the curve so
that its first element lands on the target, but the source computes the
offset as `front + 8 - to` instead of `to + 8 - front`.  On the curve
`new(Npp, NONE)` (first element index 0) with target `Np0` (index 1),
the first element after `rotate_to` is `N0p` (index 7), not the target. -/
theorem claim_C1_rotate_to_failing :
    (rotate_to (DragonCurve.new Dir.Npp CurveFlags.dragon) Dir.Np0).list = [Dir.N0p]
      ∧ Dir.N0p ≠ Dir.Np0 := by decide

/-- Claim C2: every curve reachable from `new` through the public
operations has exactly `2 ^ depth` segments, and `new` produces depth 0
with exactly one segment. -/
theorem claim_C2_length_invariant (s : Dir) (f : CurveFlags) (c : DragonCurve)
    (h : Reachable s f c) :
    c.list.length = 2 ^ c.depth
      ∧ (DragonCurve.new s f).depth = 0 ∧ (DragonCurve.new s f).list.length = 1 := by
  obtain ⟨s0, D, hc⟩ := reachable_canonical h
  refine ⟨?_, rfl, rfl⟩
  rw [hc]
  show (growIter f D [s0]).length = 2 ^ D
  rw [growIter_length]
  simp

theorem claim_C2_witness :
    (set_depth (DragonCurve.new Dir.Np0 CurveFlags.dragon) 3).list.length
      = 2 ^ (set_depth (DragonCurve.new Dir.Np0 CurveFlags.dragon) 3).depth :=
  (claim_C2_length_invariant Dir.Np0 CurveFlags.dragon _
    (Reachable.setDepth 3 Reachable.base)).1

/-- Claim C3: growing a reachable curve from depth `d` to `d + k` and
shrinking back to `d` reproduces the original segment sequence. -/
theorem claim_C3_grow_shrink_inverse (s : Dir) (f : CurveFlags) (c : DragonCurve)
    (d k : Nat) (hr : Reachable s f c) (hd : c.depth = d) (_hk : 1 ≤ k) :
    (set_depth (set_depth c (d + k)) d).list = c.list := by
  obtain ⟨s0, D, hc⟩ := reachable_canonical hr
  have hD : D = d := by rw [hc] at hd; exact hd
  subst hD
  rw [hc, set_depth_canonical, set_depth_canonical]

theorem claim_C3_witness :
    (set_depth (set_depth (DragonCurve.new Dir.Np0 CurveFlags.dragon) (0 + 2)) 0).list
      = (DragonCurve.new Dir.Np0 CurveFlags.dragon).list :=
  claim_C3_grow_shrink_inverse Dir.Np0 CurveFlags.dragon _ 0 2
    Reachable.base rfl (by omega)

/-- Claim C4: the first `2 ^ d` segments of a depth-`D` curve, each
rotated by the shrink-rule offset (`(D - d) mod 8`, negated through
`(8 - rot) mod 8` under FLIP), equal the full sequence of the depth-`d`
curve built independently from the same start and flags. -/
theorem claim_C4_self_similarity (s : Dir) (f : CurveFlags) (d D : Nat) (h : d < D) :
    ((set_depth (DragonCurve.new s f) D).list.take (2 ^ d)).map
      (fun x => x.rotate (if f.flip then (8 - (D - d) % 8) % 8 else (D - d) % 8))
    = (set_depth (DragonCurve.new s f) d).list := by
  rw [show DragonCurve.new s f = ⟨growIter f 0 [s], 0, f⟩ from rfl,
    set_depth_canonical, set_depth_canonical]
  show ((growIter f D [s]).take (2 ^ d)).map _ = growIter f d [s]
  have hdec : D = d + (D - d) := by omega
  have key := growIter_take_pow f s d (D - d)
  rw [← hdec] at key
  rw [key, ← growIter_map_rotate]
  show growIter f d [(s.rotate _).rotate _] = _
  rw [Dir.rotate_rotate, Dir.rotate_eq_self s (specRot_cancel f.flip (D - d))]

theorem claim_C4_witness :
    ((set_depth (DragonCurve.new Dir.Np0 CurveFlags.dragon) 2).list.take (2 ^ 0)).map
      (fun x => x.rotate
        (if CurveFlags.dragon.flip then (8 - (2 - 0) % 8) % 8 else (2 - 0) % 8))
    = (set_depth (DragonCurve.new Dir.Np0 CurveFlags.dragon) 0).list :=
  claim_C4_self_similarity Dir.Np0 CurveFlags.dragon 0 2 (by omega)

/-- Claim C5: one grow level replaces each original element `d`, in
order, by the pair `(d.left, d.right)` when `(LEVY || parity) xor FLIP`
holds and `(d.right, d.left)` otherwise, with the parity starting true
and toggling per element; concretely, growing `new(+x, NONE)` to depth 1
yields `[+x rotated left, +x rotated right]`. -/
theorem claim_C5_grow_rule :
    (∀ (f : CurveFlags) (l : List Dir), growStep f l = specGrowLevel f l)
      ∧ (set_depth (DragonCurve.new Dir.Np0 CurveFlags.dragon) 1).list
          = [Dir.Np0.left, Dir.Np0.right] := by
  constructor
  · intro f l
    unfold growStep specGrowLevel
    rw [show List.enum l = List.enumFrom 0 l from rfl]
    exact growStepAux_enumFrom f l 0 true rfl
  · decide

/-- Claim C6: shrinking to a target depth `n < depth` keeps exactly the
first `2 ^ n` elements, each rotated by `(depth - n) mod 8` (replaced by
`(8 - rot) mod 8` under FLIP), and discards the remainder. -/
theorem claim_C6_shrink_rule (c : DragonCurve) (n : Nat)
    (hinv : c.list.length = 2 ^ c.depth) (hn : n < c.depth) :
    (set_depth c n).list
      = (c.list.take (2 ^ n)).map
          (fun x => x.rotate
            (if c.flags.flip then (8 - (c.depth - n) % 8) % 8 else (c.depth - n) % 8))
      ∧ (set_depth c n).depth = n := by
  refine ⟨?_, set_depth_depth c n⟩
  by_cases h0 : n = 0
  · subst h0
    cases hc : c.list with
    | nil =>
      rw [hc] at hinv
      have := Nat.two_pow_pos c.depth
      simp at hinv
      omega
    | cons d t =>
      rw [set_depth_shrink_zero (by omega) hc]
      show [d.rotate _] = ((d :: t).take (2 ^ 0)).map _
      rw [show ((d :: t).take (2 ^ 0)) = [d] from rfl, List.map_cons, List.map_nil]
      have : d.rotate (if c.flags.flip then wrapSub8 c.depth else c.depth)
          = d.rotate
              (if c.flags.flip then (8 - (c.depth - 0) % 8) % 8 else (c.depth - 0) % 8) := by
        apply Dir.rotate_congr_mod
        cases c.flags.flip <;> simp [wrapSub8] <;> omega
      rw [this]
  · rw [set_depth_shrink_pos hn h0]
    show ((c.list.take (2 ^ n)).map _) = _
    have hfun : (fun x : Dir => x.rotate
          (if c.flags.flip then wrapSub8 (c.depth - n) else c.depth - n))
        = (fun x : Dir => x.rotate
          (if c.flags.flip then (8 - (c.depth - n) % 8) % 8 else (c.depth - n) % 8)) := by
      funext x
      apply Dir.rotate_congr_mod
      cases c.flags.flip <;> simp [wrapSub8] <;> omega
    rw [hfun]

theorem claim_C6_witness :
    (set_depth ⟨[Dir.Npp, Dir.Np0], 1, CurveFlags.dragon⟩ 0).list
      = (([Dir.Npp, Dir.Np0] : List Dir).take (2 ^ 0)).map
          (fun x => x.rotate
            (if CurveFlags.dragon.flip then (8 - (1 - 0) % 8) % 8 else (1 - 0) % 8))
      ∧ (set_depth ⟨[Dir.Npp, Dir.Np0], 1, CurveFlags.dragon⟩ 0).depth = 0 :=
  claim_C6_shrink_rule ⟨[Dir.Npp, Dir.Np0], 1, CurveFlags.dragon⟩ 0
    (by decide) (by decide)

/-- Claim C7: `rotate` is total, lands on the direction whose index is
`(index + by) mod 8` (the `u8` wrap modulo 256 composed with the final
modulo 8 agrees with plain modulo 8), never leaves the 8 valid
directions, and `right`/`left` are `rotate 1`/`rotate 7`. -/
theorem claim_C7_rotate_total (d : Dir) (b : Nat) :
    (d.rotate b).toIdx = (d.toIdx + b) % 8
      ∧ (d.rotate b).toIdx < 8
      ∧ d.right = d.rotate 1 ∧ d.left = d.rotate 7 :=
  ⟨Dir.toIdx_rotate d b, by rw [Dir.toIdx_rotate]; omega, rfl, rfl⟩

/-- Claim C8: a second `set_depth` with the same target is a no-op — the
whole curve (sequence, depth and flags) is unchanged by the second call. -/
theorem claim_C8_idempotent (c : DragonCurve) (n : Nat) :
    set_depth (set_depth c n) n = set_depth c n := by
  have h := set_depth_depth c n
  generalize set_depth c n = x at h ⊢
  rw [← h]
  exact set_depth_self x

/-- Claim C10: curve equality compares only depth and flags; two curves
with equal depth and flags compare equal no matter their sequences — in
particular a curve compares equal to any of its whole-sequence
rotations. -/
theorem claim_C10_eq_ignores_list :
    (∀ a b : DragonCurve,
      beqDragonCurve a b = true ↔ a.depth = b.depth ∧ a.flags = b.flags)
      ∧ (∀ (c : DragonCurve) (b : Nat), beqDragonCurve c (rotate_by c b) = true) := by
  constructor
  · intro a b
    simp [beqDragonCurve]
  · intro c b
    simp [beqDragonCurve, rotate_by]
